import Mathlib

/-! go-wordle: a shallow embedding of `wordle.go`.

A Go `string` is a sequence of bytes; it is embedded as a `List Nat` whose
entries are the byte values (each `< 256` for a real Go string).  A `rune` is
embedded as a `Nat` (its code point).  Code that can panic (an index out of
range, `rand.Intn 0`) returns `Option`, with `none` standing for the panic.
-/

set_option autoImplicit false

namespace Wordle

/-- A Go string: its bytes, in order. -/
abbrev Str := List Nat

/-- A Go rune: a Unicode code point. -/
abbrev Rune := Nat

/-! ## Library functions used by the program -/

/-- UTF-8 encoding of a rune below `0x800` (Go `string(r)`): one byte below
`0x80`, otherwise the two bytes `110xxxxx 10xxxxxx`.  Every rune the program
builds is `rune(b)` for a byte `b`, hence below `0x100`. -/
def encodeRune (r : Rune) : Str :=
  if r < 128 then [r] else [192 + r / 64, 128 + r % 64]

/-- Go `strings.ContainsRune(s, r)`, that is `strings.IndexRune(s, r) >= 0`:
for `r < utf8.RuneSelf` a byte search, otherwise a search for the UTF-8
encoding of `r` as a substring of `s`. -/
def containsRune (s : Str) (r : Rune) : Bool :=
  if r < 128 then s.contains r else decide (encodeRune r <:+: s)

/-- Go `strings.ContainsAny(s, chars)` for a `chars` made of ASCII characters:
some byte of `s` is one of `chars`. -/
def containsAny (s chars : Str) : Bool :=
  s.any (fun b => chars.contains b)

/-! ## `in` and `isValid` -/

/-- Go `in(words, word)`: linear search with string equality. -/
def inList : List Str → Str → Bool
  | [], _ => false
  | v :: rest, word => if v = word then true else inList rest word

/-- Go `isValid(word, words)`. -/
def isValid (word : Str) (words : List Str) : Bool :=
  word.length == 5 && inList words word

/-! ## `initializeWords` -/

/-- Go `bufio.MaxScanTokenSize` (`64 * 1024`), the largest size the buffer of
a default `bufio.Scanner` grows to. -/
def maxScanTokenSize : Nat := 65536

/-- Go `dropCR` of `bufio.ScanLines`: one trailing carriage return is dropped. -/
def dropCR (data : Str) : Str :=
  if data.getLast? = some 13 then data.dropLast else data

/-- The successive values of `scanner.Text()` of the default `bufio.Scanner`
(split function `bufio.ScanLines`) over a file whose lines, without their
terminating newline, are `lines` (a last line need not be terminated).  A line
together with its newline must fit the buffer: at a line of
`maxScanTokenSize` bytes or more `Scan` returns false (`ErrTooLong`, which
`initializeWords` never looks at) and the scan is over. -/
def scanLines : List Str → List Str
  | [] => []
  | line :: rest =>
    if maxScanTokenSize ≤ line.length then [] else dropCR line :: scanLines rest

/-- The `for scanner.Scan()` loop of `initializeWords`, run over the successive
values of `scanner.Text()`; `validWords` is the slice built so far.  `word[0]`
panics on an empty line. -/
def scanLoop (validWords : List Str) : List Str → Option (List Str)
  | [] => some validWords
  | word :: rest =>
    match word[0]? with
    | none => none
    | some c =>
      if 65 ≤ c ∧ c ≤ 90 then scanLoop validWords rest
      else if containsAny word [39] then scanLoop validWords rest
      else if word.length ≠ 5 then scanLoop validWords rest
      else scanLoop (validWords ++ [word]) rest

/-- Go `initializeWords`, as a function of the lines of the dictionary file. -/
def initializeWords (lines : List Str) : Option (List Str) :=
  scanLoop [] (scanLines lines)

/-! ## `contains` and `cowsAndBulls` -/

/-- Go `contains(rs, r)`. -/
def contains : List Rune → Rune → Bool
  | [], _ => false
  | val :: rest, r => if val = r then true else contains rest r

/-- The `for i < 5` loop of `cowsAndBulls`; `n` is the number of iterations
left (`5 - i`).  Indexing `guess[i]` or `pick[i]` out of range panics. -/
def cowsLoop (guess pick : Str) :
    Nat → Nat → List Rune → List Rune → Option (List Rune × List Rune)
  | 0, _, locMatch, inWord => some (locMatch, inWord)
  | n + 1, i, locMatch, inWord =>
    match guess[i]?, pick[i]? with
    | some g, some p =>
      if g = p then cowsLoop guess pick n (i + 1) (locMatch ++ [g]) inWord
      else if containsRune pick g then
        cowsLoop guess pick n (i + 1) locMatch (inWord ++ [g])
      else cowsLoop guess pick n (i + 1) locMatch inWord
    | _, _ => none

/-- The `range inWord` loop of `cowsAndBulls`. -/
def nonLocLoop (locMatch : List Rune) (nonLocMatch : List Rune) :
    List Rune → List Rune
  | [] => nonLocMatch
  | val :: rest =>
    if !contains locMatch val then nonLocLoop locMatch (nonLocMatch ++ [val]) rest
    else nonLocLoop locMatch nonLocMatch rest

/-- Go `cowsAndBulls(guess, pick)`: the pair `(locMatch, nonLocMatch)`. -/
def cowsAndBulls (guess pick : Str) : Option (List Rune × List Rune) :=
  match cowsLoop guess pick 5 0 [] [] with
  | none => none
  | some (locMatch, inWord) => some (locMatch, nonLocLoop locMatch [] inWord)

/-! ## `pickRandomWord` -/

/-- Go `rand.Intn(n)`: panics when `n <= 0`, otherwise some value in `[0, n)`
determined by the state `seed` of the random source. -/
def randIntn (seed n : Nat) : Option Nat :=
  if n = 0 then none else some (seed % n)

/-- Go `pickRandomWord(validWords)`, `seed` being the state of the random
source. -/
def pickRandomWord (validWords : List Str) (seed : Nat) : Option Str :=
  match randIntn seed validWords.length with
  | none => none
  | some k => validWords[k]?

/-! ## The game loop of `main` -/

/-- The loop variables of `main`. -/
structure Game where
  guessCount : Nat
  found : Bool
  deriving DecidableEq, Repr

/-- What `stdscr.GetString(5)` hands back: an error or a string. -/
inductive Input where
  | err : Input
  | str : Str → Input
  deriving DecidableEq, Repr

/-- How one run of the loop body ends. -/
inductive BodyResult where
  | next : Game → BodyResult
  | brk : Game → BodyResult
  | panicked : BodyResult
  deriving DecidableEq, Repr

/-- The body of the `for guessCount < 6` loop of `main`. -/
def loopBody (validWords : List Str) (pickedWord : Str) (st : Game) :
    Input → BodyResult
  | Input.err => BodyResult.next st
  | Input.str str =>
    if !isValid str validWords then BodyResult.next st
    else if str = pickedWord then
      BodyResult.brk (Game.mk (st.guessCount + 1) true)
    else
      match cowsAndBulls str pickedWord with
      | none => BodyResult.panicked
      | some _ => BodyResult.next (Game.mk (st.guessCount + 1) st.found)

/-- How the loop of `main` ends on a finite list of inputs. -/
inductive LoopResult where
  | finished : Game → List Input → LoopResult
  | blocked : Game → LoopResult
  | panicked : LoopResult
  deriving DecidableEq, Repr

/-- The `for guessCount < 6` loop of `main`, fed the successive results of
`GetString`.  `finished st rest`: the loop was left in state `st` with the
inputs `rest` never read; `blocked st`: the inputs ran out while the loop was
still waiting for a guess. -/
def gameLoop (validWords : List Str) (pickedWord : Str) :
    Game → List Input → LoopResult
  | st, [] => if st.guessCount < 6 then LoopResult.blocked st else LoopResult.finished st []
  | st, inp :: rest =>
    if st.guessCount < 6 then
      match loopBody validWords pickedWord st inp with
      | BodyResult.next st1 => gameLoop validWords pickedWord st1 rest
      | BodyResult.brk st1 => LoopResult.finished st1 rest
      | BodyResult.panicked => LoopResult.panicked
    else LoopResult.finished st (inp :: rest)

/-- The state in which `main` enters its loop. -/
def initGame : Game := Game.mk 0 false

/-- The word revealed by the closing `if guessCount == 6 && !found` of `main`
("You have used up all six attempts. Word is ..."), if that message is shown. -/
def lostMessage (pickedWord : Str) (st : Game) : Option Str :=
  if st.guessCount == 6 && !st.found then some pickedWord else none

/-- Go `main`, from `validWords := initializeWords()` on: `lines` are the
lines of the dictionary file, `seed` the state of the random source, `inputs`
the successive results of `GetString`.  `none`: a panic before the loop is
entered. -/
def main (lines : List Str) (seed : Nat) (inputs : List Input) : Option LoopResult :=
  match initializeWords lines with
  | none => none
  | some validWords =>
    match pickRandomWord validWords seed with
    | none => none
    | some pickedWord => some (gameLoop validWords pickedWord initGame inputs)

/-! ## The two-pass algorithm of the specification -/

/-- Per-position feedback of the specification. -/
inductive LetterFeedback where
  | Exact
  | Present
  | Absent
  deriving DecidableEq, Repr

/-- Specification, pass 1: every position with `guess[i] == target[i]`
decrements the available count of that letter in the pool. -/
def specPass1 (pool : Nat → Nat) : List (Nat × Nat) → (Nat → Nat)
  | [] => pool
  | (g, t) :: rest =>
    if g = t then specPass1 (fun c => if c = g then pool c - 1 else pool c) rest
    else specPass1 pool rest

/-- Specification, pass 2: a position not marked `Exact` is `Present` when its
letter still has available count `> 0`, which is then decremented, and
`Absent` otherwise. -/
def specPass2 (pool : Nat → Nat) : List (Nat × Nat) → List LetterFeedback
  | [] => []
  | (g, t) :: rest =>
    if g = t then LetterFeedback.Exact :: specPass2 pool rest
    else if 0 < pool g then
      LetterFeedback.Present ::
        specPass2 (fun c => if c = g then pool c - 1 else pool c) rest
    else LetterFeedback.Absent :: specPass2 pool rest

/-- Specification `classify(guess, target)`: the pool starts as the letter
counts of the target. -/
def specClassify (guess target : Str) : List LetterFeedback :=
  specPass2 (specPass1 (fun c => target.count c) (guess.zip target)) (guess.zip target)

/-- The guess letters, in position order, at the positions carrying the
feedback `fb`. -/
def lettersMarked (fb : LetterFeedback) (guess : Str) (marks : List LetterFeedback) :
    List Rune :=
  ((guess.zip marks).filter (fun p => p.2 = fb)).map Prod.fst

/-! ## Test data -/

/-- The bytes of "robot". -/
def robot : Str := [114, 111, 98, 111, 116]

/-- The bytes of "boots". -/
def boots : Str := [98, 111, 111, 116, 115]

/-- The bytes of "crate". -/
def crate : Str := [99, 114, 97, 116, 101]

/-- The bytes of "iPads". -/
def iPads : Str := [105, 80, 97, 100, 115]

/-- The bytes of "ROBOT". -/
def upperRobot : Str := [82, 79, 66, 79, 84]

/-- A line of 65536 letters `a`. -/
def longLine : Str := List.replicate 65536 97

/-- The bytes of "abcde". -/
def abcde : Str := [97, 98, 99, 100, 101]

/-- The bytes of "bxbxx". -/
def bxbxx : Str := [98, 120, 98, 120, 120]

/-! ## Position-wise descriptions used in the statements -/

/-- The guess letters, in position order, at the positions where the paired
letters agree. -/
def agreeing (z : List (Nat × Nat)) : List Rune :=
  (z.filter (fun p => p.1 == p.2)).map Prod.fst

/-- The guess letters, in position order, at the positions where the paired
letters differ and the guess letter is found in `pick` by `containsRune`. -/
def elsewhere (pick : Str) (z : List (Nat × Nat)) : List Rune :=
  (z.filter (fun p => !(p.1 == p.2) && containsRune pick p.1)).map Prod.fst

/-- The three tests of the `initializeWords` filter, for a non-empty line:
first byte outside `'A'..'Z'`, no apostrophe, length 5. -/
def passesFilters (word : Str) : Bool :=
  !(decide (65 ≤ word.headD 0 ∧ word.headD 0 ≤ 90)) && !containsAny word [39] &&
    word.length == 5

/-- The strings among the inputs that `isValid` accepts, in order: the guesses
the game loop evaluates. -/
def validGuesses (validWords : List Str) : List Input → List Str
  | [] => []
  | Input.err :: rest => validGuesses validWords rest
  | Input.str s :: rest =>
    if isValid s validWords then s :: validGuesses validWords rest
    else validGuesses validWords rest

/-! ## Basic facts -/

theorem contains_eq_true (rs : List Rune) (r : Rune) :
    contains rs r = true ↔ r ∈ rs := by
  induction rs with
  | nil => simp [contains]
  | cons v rest ih =>
    by_cases h : v = r
    · simp [contains, h]
    · have h1 : ¬ r = v := fun e => h e.symm
      simp [contains, h, h1, ih]

theorem inList_eq_true (words : List Str) (word : Str) :
    inList words word = true ↔ word ∈ words := by
  induction words with
  | nil => simp [inList]
  | cons v rest ih =>
    by_cases h : v = word
    · simp [inList, h]
    · have h1 : ¬ word = v := fun e => h e.symm
      simp [inList, h, h1, ih]

theorem nonLocLoop_eq (locMatch : List Rune) (inWord acc : List Rune) :
    nonLocLoop locMatch acc inWord =
      acc ++ inWord.filter (fun v => !contains locMatch v) := by
  induction inWord generalizing acc with
  | nil => simp [nonLocLoop]
  | cons v rest ih =>
    by_cases h : contains locMatch v = true
    · simp [nonLocLoop, h, ih]
    · simp only [Bool.not_eq_true] at h
      simp [nonLocLoop, h, ih]

theorem cowsLoop_eq (guess pick : Str) (n : Nat) :
    ∀ (i : Nat) (locMatch inWord : List Rune),
      i + n ≤ guess.length → i + n ≤ pick.length →
      cowsLoop guess pick n i locMatch inWord =
        some (locMatch ++ agreeing (((guess.drop i).zip (pick.drop i)).take n),
              inWord ++ elsewhere pick (((guess.drop i).zip (pick.drop i)).take n)) := by
  induction n with
  | zero => intro i l w _ _; simp [cowsLoop, agreeing, elsewhere]
  | succ n ih =>
    intro i l w hg hp
    have hgi : i < guess.length := by omega
    have hpi : i < pick.length := by omega
    have dg : guess.drop i = guess[i] :: guess.drop (i + 1) := List.drop_eq_getElem_cons hgi
    have dp : pick.drop i = pick[i] :: pick.drop (i + 1) := List.drop_eq_getElem_cons hpi
    have eg : guess[i]? = some guess[i] := List.getElem?_eq_getElem hgi
    have ep : pick[i]? = some pick[i] := List.getElem?_eq_getElem hpi
    rw [cowsLoop, eg, ep, dg, dp]
    simp only [List.zip_cons_cons, List.take_succ_cons]
    by_cases h : guess[i] = pick[i]
    · rw [if_pos h, ih (i + 1) _ _ (by omega) (by omega)]
      simp [agreeing, elsewhere, h]
    · rw [if_neg h]
      by_cases hc : containsRune pick guess[i] = true
      · rw [if_pos hc, ih (i + 1) _ _ (by omega) (by omega)]
        simp [agreeing, elsewhere, h, hc]
      · rw [if_neg hc, ih (i + 1) _ _ (by omega) (by omega)]
        simp only [Bool.not_eq_true] at hc
        simp [agreeing, elsewhere, h, hc]

/-- On two 5-byte strings `cowsAndBulls` does not panic, and its two results
are the agreeing letters and the filtered letters found elsewhere. -/
theorem cowsAndBulls_eq (guess pick : Str) (hg : guess.length = 5) (hp : pick.length = 5) :
    cowsAndBulls guess pick =
      some (agreeing (guess.zip pick),
            (elsewhere pick (guess.zip pick)).filter
              (fun v => !contains (agreeing (guess.zip pick)) v)) := by
  have hz : ((guess.drop 0).zip (pick.drop 0)).take 5 = guess.zip pick := by
    rw [List.drop_zero, List.drop_zero]
    apply List.take_of_length_le
    simp [List.length_zip, hg, hp]
  rw [cowsAndBulls, cowsLoop_eq guess pick 5 0 [] [] (by omega) (by omega), hz]
  simp [nonLocLoop_eq]

theorem agreeing_length_le (z : List (Nat × Nat)) : (agreeing z).length ≤ z.length := by
  simp only [agreeing, List.length_map]
  exact List.length_filter_le _ _

theorem agreeing_length_eq (z : List (Nat × Nat)) :
    (agreeing z).length = z.length ↔ ∀ p ∈ z, p.1 = p.2 := by
  induction z with
  | nil => simp [agreeing]
  | cons a rest ih =>
    have hle := agreeing_length_le rest
    by_cases h : a.1 = a.2
    · have e : agreeing (a :: rest) = a.1 :: agreeing rest := by simp [agreeing, h]
      simp only [e, List.length_cons, List.mem_cons, forall_eq_or_imp, h, true_and]
      rw [← ih]; omega
    · have e : agreeing (a :: rest) = agreeing rest := by simp [agreeing, h]
      simp only [e, List.length_cons, List.mem_cons, forall_eq_or_imp, h, false_and, iff_false]
      omega

theorem eq_of_zip_agree : ∀ (guess pick : Str), guess.length = pick.length →
    (∀ p ∈ guess.zip pick, p.1 = p.2) → guess = pick
  | [], [], _, _ => rfl
  | [], _ :: _, h, _ => by simp at h
  | _ :: _, [], h, _ => by simp at h
  | g :: gs, p :: ps, h, hall => by
    have h1 : g = p := hall (g, p) (by simp)
    have h2 : gs = ps := eq_of_zip_agree gs ps (by simpa using h)
      (fun q hq => hall q (by simp [hq]))
    rw [h1, h2]

theorem zip_self_agree (w : Str) : ∀ p ∈ w.zip w, p.1 = p.2 := by
  induction w with
  | nil => simp
  | cons a rest ih =>
    intro p hp
    simp only [List.zip_cons_cons, List.mem_cons] at hp
    rcases hp with rfl | hp
    · rfl
    · exact ih p hp

theorem elsewhere_eq_nil_of_agree (pick : Str) (z : List (Nat × Nat))
    (h : ∀ p ∈ z, p.1 = p.2) : elsewhere pick z = [] := by
  simp only [elsewhere, List.map_eq_nil_iff, List.filter_eq_nil_iff]
  intro p hp
  simp [h p hp]

/-- C3: on a 5-letter guess and a 5-letter target, `cowsAndBulls` returns as
its location-match list exactly the guess letters, in position order, at the
positions `i` in `0..4` with `guess[i] == target[i]`; its length is the number
of positions at which guess and target agree. -/
theorem cowsAndBulls_locMatch (guess pick : Str)
    (hg : guess.length = 5) (hp : pick.length = 5) :
    ∃ locMatch nonLocMatch, cowsAndBulls guess pick = some (locMatch, nonLocMatch) ∧
      locMatch = ((List.range 5).filter
          (fun i => guess.getD i 0 == pick.getD i 0)).map (fun i => guess.getD i 0) ∧
      locMatch.length =
        (List.range 5).countP (fun i => guess.getD i 0 == pick.getD i 0) := by
  refine ⟨_, _, cowsAndBulls_eq guess pick hg hp, ?_, ?_⟩
  · match guess, hg, pick, hp with
    | [g0, g1, g2, g3, g4], _, [p0, p1, p2, p3, p4], _ =>
      simp only [agreeing, List.zip_cons_cons, List.zip_nil_right, List.range, List.range.loop,
        List.filter_cons, List.filter_nil, List.getD_cons_zero, List.getD_cons_succ]
      split_ifs <;> simp
  · match guess, hg, pick, hp with
    | [g0, g1, g2, g3, g4], _, [p0, p1, p2, p3, p4], _ =>
      simp only [agreeing, List.zip_cons_cons, List.zip_nil_right, List.range, List.range.loop,
        List.filter_cons, List.filter_nil, List.getD_cons_zero, List.getD_cons_succ,
        List.countP_cons, List.countP_nil]
      split_ifs <;> simp

theorem cowsAndBulls_locMatch_witness :
    ∃ locMatch nonLocMatch, cowsAndBulls boots robot = some (locMatch, nonLocMatch) ∧
      locMatch = ((List.range 5).filter
          (fun i => boots.getD i 0 == robot.getD i 0)).map (fun i => boots.getD i 0) ∧
      locMatch.length =
        (List.range 5).countP (fun i => boots.getD i 0 == robot.getD i 0) :=
  cowsAndBulls_locMatch boots robot (by decide) (by decide)

/-- C4: on a 5-letter guess and a 5-letter target, `cowsAndBulls` returns five
location-match letters and no in-the-word letter if and only if the guess
equals the target; and the win branch of the game loop (taken on string
equality of a valid guess with the picked word) is taken exactly when all five
positions are location matches. -/
theorem cowsAndBulls_all_exact_iff (guess pick : Str)
    (hg : guess.length = 5) (hp : pick.length = 5) :
    ∃ locMatch nonLocMatch, cowsAndBulls guess pick = some (locMatch, nonLocMatch) ∧
      ((locMatch.length = 5 ∧ nonLocMatch = []) ↔ guess = pick) ∧
      ∀ (validWords : List Str) (st : Game), isValid guess validWords = true →
        (loopBody validWords pick st (Input.str guess) =
            BodyResult.brk (Game.mk (st.guessCount + 1) true) ↔
          (locMatch.length = 5 ∧ nonLocMatch = [])) := by
  have hz : (guess.zip pick).length = 5 := by simp [List.length_zip, hg, hp]
  have key : ((agreeing (guess.zip pick)).length = 5 ∧
      (elsewhere pick (guess.zip pick)).filter
        (fun v => !contains (agreeing (guess.zip pick)) v) = []) ↔ guess = pick := by
    constructor
    · rintro ⟨h5, _⟩
      have h := (agreeing_length_eq (guess.zip pick)).1 (by rw [h5, hz])
      exact eq_of_zip_agree guess pick (by rw [hg, hp]) h
    · intro e
      subst e
      have hall := zip_self_agree guess
      refine ⟨?_, ?_⟩
      · rw [(agreeing_length_eq (guess.zip guess)).2 hall, hz]
      · rw [elsewhere_eq_nil_of_agree guess _ hall]; rfl
  refine ⟨_, _, cowsAndBulls_eq guess pick hg hp, key, ?_⟩
  intro validWords st hv
  rw [key]
  by_cases e : guess = pick
  · subst e
    simp [loopBody, hv]
  · simp only [loopBody, hv, e, Bool.not_true, Bool.false_eq_true, if_false, iff_false]
    rw [cowsAndBulls_eq guess pick hg hp]
    simp

theorem cowsAndBulls_all_exact_iff_witness :
    ∃ locMatch nonLocMatch, cowsAndBulls robot robot = some (locMatch, nonLocMatch) ∧
      ((locMatch.length = 5 ∧ nonLocMatch = []) ↔ robot = robot) ∧
      ∀ (validWords : List Str) (st : Game), isValid robot validWords = true →
        (loopBody validWords robot st (Input.str robot) =
            BodyResult.brk (Game.mk (st.guessCount + 1) true) ↔
          (locMatch.length = 5 ∧ nonLocMatch = [])) :=
  cowsAndBulls_all_exact_iff robot robot (by decide) (by decide)

theorem agreeing_eq_map_snd (z : List (Nat × Nat)) :
    agreeing z = (z.filter (fun p => p.1 == p.2)).map Prod.snd := by
  unfold agreeing
  apply List.map_congr_left
  intro p hp
  simpa using (List.mem_filter.1 hp).2

theorem count_agreeing_le_snd (z : List (Nat × Nat)) (c : Rune) :
    (agreeing z).count c ≤ (z.map Prod.snd).count c := by
  rw [agreeing_eq_map_snd]
  exact ((List.filter_sublist z).map Prod.snd).count_le c

theorem count_agreeing_add_elsewhere (pick : Str) (z : List (Nat × Nat)) (c : Rune) :
    (agreeing z).count c + (elsewhere pick z).count c ≤ (z.map Prod.fst).count c := by
  induction z with
  | nil => simp [agreeing, elsewhere]
  | cons a rest ih =>
    have e3 : ((a :: rest).map Prod.fst).count c =
        (rest.map Prod.fst).count c + (if a.1 = c then 1 else 0) := by
      simp [List.count_cons]
    by_cases h : a.1 = a.2
    · have e1 : agreeing (a :: rest) = a.1 :: agreeing rest := by simp [agreeing, h]
      have e2 : elsewhere pick (a :: rest) = elsewhere pick rest := by simp [elsewhere, h]
      rw [e1, e2, e3, List.count_cons]
      simp only [beq_iff_eq]
      omega
    · have e1 : agreeing (a :: rest) = agreeing rest := by simp [agreeing, h]
      by_cases hc : containsRune pick a.1 = true
      · have e2 : elsewhere pick (a :: rest) = a.1 :: elsewhere pick rest := by
          simp [elsewhere, h, hc]
        rw [e1, e2, e3, List.count_cons]
        simp only [beq_iff_eq]
        omega
      · have e2 : elsewhere pick (a :: rest) = elsewhere pick rest := by
          simp only [Bool.not_eq_true] at hc
          simp [elsewhere, h, hc]
        rw [e1, e2, e3]
        omega

theorem mem_elsewhere (pick : Str) (z : List (Nat × Nat)) (c : Rune)
    (h : c ∈ elsewhere pick z) :
    ∃ p ∈ z, p.1 = c ∧ p.1 ≠ p.2 ∧ containsRune pick c = true := by
  simp only [elsewhere, List.mem_map, List.mem_filter, Bool.and_eq_true] at h
  obtain ⟨p, ⟨hp, hne, hc⟩, rfl⟩ := h
  exact ⟨p, hp, rfl, by simpa using hne, hc⟩

theorem mem_agreeing (z : List (Nat × Nat)) (c : Rune) (h : c ∈ agreeing z) :
    ∃ p ∈ z, p.1 = c ∧ p.1 = p.2 := by
  simp only [agreeing, List.mem_map, List.mem_filter, beq_iff_eq] at h
  obtain ⟨p, ⟨hp, he⟩, rfl⟩ := h
  exact ⟨p, hp, rfl, he⟩

theorem containsRune_ascii (pick : Str) (c : Rune) (hc : c < 128) :
    containsRune pick c = true ↔ c ∈ pick := by
  simp [containsRune, hc]

/-- C1, the reported letters overcount: for the guess "bxbxx" against the
target "abcde" the letter `b` is reported twice as in-the-word although the
target holds it once. -/
theorem cowsAndBulls_overcount :
    bxbxx.length = 5 ∧ abcde.length = 5 ∧
    ∃ locMatch nonLocMatch, cowsAndBulls bxbxx abcde = some (locMatch, nonLocMatch) ∧
      ¬ (locMatch.count 98 + nonLocMatch.count 98 ≤ abcde.count 98) :=
  ⟨by decide, by decide, [], [98, 98], by decide, by decide⟩

/-- C1, as amended: on a 5-letter guess and a 5-letter target, for every
letter `c`, the location matches of `c` never exceed the occurrences of `c` in
the target; the location matches plus the in-the-word reports of `c` never
exceed the occurrences of `c` in the guess; a letter that is a location match
is never reported in-the-word; an ASCII letter absent from the target is never
reported; hence the reports of `c` stay within its occurrences in the target
whenever `c` is a location match or is an ASCII letter occurring at most once
in the guess. -/
theorem cowsAndBulls_count_bounds (guess pick : Str)
    (hg : guess.length = 5) (hp : pick.length = 5) (c : Rune) :
    ∃ locMatch nonLocMatch, cowsAndBulls guess pick = some (locMatch, nonLocMatch) ∧
      locMatch.count c ≤ pick.count c ∧
      locMatch.count c + nonLocMatch.count c ≤ guess.count c ∧
      (c ∈ locMatch → nonLocMatch.count c = 0) ∧
      (c < 128 → c ∉ pick → locMatch.count c + nonLocMatch.count c = 0) ∧
      (c ∈ locMatch ∨ (c < 128 ∧ guess.count c ≤ 1) →
        locMatch.count c + nonLocMatch.count c ≤ pick.count c) := by
  have hfst : (guess.zip pick).map Prod.fst = guess :=
    List.map_fst_zip guess pick (by omega)
  have hsnd : (guess.zip pick).map Prod.snd = pick :=
    List.map_snd_zip guess pick (by omega)
  have h1 : (agreeing (guess.zip pick)).count c ≤ pick.count c := by
    have := count_agreeing_le_snd (guess.zip pick) c
    rwa [hsnd] at this
  have hsub : ((elsewhere pick (guess.zip pick)).filter
      (fun v => !contains (agreeing (guess.zip pick)) v)).count c ≤
      (elsewhere pick (guess.zip pick)).count c :=
    (List.filter_sublist _).count_le c
  have h2 : (agreeing (guess.zip pick)).count c +
      ((elsewhere pick (guess.zip pick)).filter
        (fun v => !contains (agreeing (guess.zip pick)) v)).count c ≤ guess.count c := by
    have := count_agreeing_add_elsewhere pick (guess.zip pick) c
    rw [hfst] at this
    omega
  have h3 : c ∈ agreeing (guess.zip pick) →
      ((elsewhere pick (guess.zip pick)).filter
        (fun v => !contains (agreeing (guess.zip pick)) v)).count c = 0 := by
    intro hc
    rw [List.count_eq_zero]
    intro hm
    have := (List.mem_filter.1 hm).2
    rw [(contains_eq_true _ _).2 hc] at this
    simp at this
  have h4 : c < 128 → c ∉ pick →
      (agreeing (guess.zip pick)).count c +
      ((elsewhere pick (guess.zip pick)).filter
        (fun v => !contains (agreeing (guess.zip pick)) v)).count c = 0 := by
    intro hc hn
    have ha : (agreeing (guess.zip pick)).count c = 0 := by
      have : pick.count c = 0 := List.count_eq_zero.2 hn
      omega
    have he : (elsewhere pick (guess.zip pick)).count c = 0 := by
      rw [List.count_eq_zero]
      intro hm
      obtain ⟨_, _, _, _, hcr⟩ := mem_elsewhere pick _ c hm
      exact hn ((containsRune_ascii pick c hc).1 hcr)
    omega
  refine ⟨_, _, cowsAndBulls_eq guess pick hg hp, h1, h2, h3, h4, ?_⟩
  rintro (hc | ⟨hc, hle⟩)
  · rw [h3 hc]; omega
  · by_cases hn : c ∈ pick
    · have : 0 < pick.count c := List.count_pos_iff.2 hn
      omega
    · rw [h4 hc hn]; omega

theorem cowsAndBulls_count_bounds_witness :
    ∃ locMatch nonLocMatch, cowsAndBulls boots robot = some (locMatch, nonLocMatch) ∧
      locMatch.count 111 ≤ robot.count 111 ∧
      locMatch.count 111 + nonLocMatch.count 111 ≤ boots.count 111 ∧
      (111 ∈ locMatch → nonLocMatch.count 111 = 0) ∧
      (111 < 128 → 111 ∉ robot → locMatch.count 111 + nonLocMatch.count 111 = 0) ∧
      (111 ∈ locMatch ∨ (111 < 128 ∧ boots.count 111 ≤ 1) →
        locMatch.count 111 + nonLocMatch.count 111 ≤ robot.count 111) :=
  cowsAndBulls_count_bounds boots robot (by decide) (by decide) 111

/-- Filtering the zipped pairs of two 5-byte strings, read position by
position. -/
theorem zip_filter_positions (f : Nat × Nat → Bool) (guess pick : Str)
    (hg : guess.length = 5) (hp : pick.length = 5) :
    ((guess.zip pick).filter f).map Prod.fst =
      ((List.range 5).filter (fun i => f (guess.getD i 0, pick.getD i 0))).map
        (fun i => guess.getD i 0) := by
  match guess, hg, pick, hp with
  | [g0, g1, g2, g3, g4], _, [p0, p1, p2, p3, p4], _ =>
    simp only [List.zip_cons_cons, List.zip_nil_right, List.range, List.range.loop,
      List.filter_cons, List.filter_nil, List.getD_cons_zero, List.getD_cons_succ]
    split_ifs <;> simp

theorem elsewhere_filter_eq (pick : Str) (locMatch : List Rune) (z : List (Nat × Nat)) :
    (elsewhere pick z).filter (fun v => !contains locMatch v) =
      (z.filter (fun p => (!(p.1 == p.2) && containsRune pick p.1) &&
        !contains locMatch p.1)).map Prod.fst := by
  induction z with
  | nil => simp [elsewhere]
  | cons a rest ih =>
    simp only [elsewhere] at ih
    simp only [elsewhere, List.filter_cons]
    by_cases h1 : (!(a.1 == a.2) && containsRune pick a.1) = true
    · by_cases h2 : (!contains locMatch a.1) = true
      · simp [h1, h2, List.filter_cons, ih]
      · simp only [Bool.not_eq_true] at h2
        simp [h1, h2, List.filter_cons, ih]
    · simp only [Bool.not_eq_true] at h1
      simp [h1, ih]

theorem specPass1_unchanged (z : List (Nat × Nat)) (c : Nat) :
    ∀ (pool : Nat → Nat), c ∉ agreeing z → specPass1 pool z c = pool c := by
  induction z with
  | nil => intro pool _; rfl
  | cons a rest ih =>
    intro pool hc
    obtain ⟨g, t⟩ := a
    by_cases h : g = t
    · have e : agreeing ((g, t) :: rest) = g :: agreeing rest := by simp [agreeing, h]
      rw [e, List.mem_cons, not_or] at hc
      rw [specPass1, if_pos h, ih _ hc.2]
      simp [hc.1]
    · have e : agreeing ((g, t) :: rest) = agreeing rest := by simp [agreeing, h]
      rw [e] at hc
      rw [specPass1, if_neg h, ih _ hc]

theorem specPass2_present (T : Nat → Nat) (z : List (Nat × Nat)) :
    ∀ (pool : Nat → Nat), (z.map Prod.fst).Nodup →
      (∀ p ∈ z, p.1 ≠ p.2 → pool p.1 = T p.1) →
      lettersMarked LetterFeedback.Present (z.map Prod.fst) (specPass2 pool z) =
        (z.filter (fun p => !(p.1 == p.2) && decide (0 < T p.1))).map Prod.fst := by
  induction z with
  | nil => intro pool _ _; simp [lettersMarked, specPass2]
  | cons a rest ih =>
    intro pool hnd hinv
    obtain ⟨g, t⟩ := a
    rw [List.map_cons, List.nodup_cons] at hnd
    have hrest : ∀ p ∈ rest, p.1 ≠ p.2 → pool p.1 = T p.1 :=
      fun p hp hne => hinv p (List.mem_cons_of_mem _ hp) hne
    by_cases h : g = t
    · have := ih pool hnd.2 hrest
      simp only [lettersMarked] at this
      simp [specPass2, h, lettersMarked, this]
    · have hP : pool g = T g := hinv (g, t) (List.mem_cons_self _ _) h
      by_cases h0 : 0 < pool g
      · have hrest2 : ∀ p ∈ rest, p.1 ≠ p.2 →
            (fun c => if c = g then pool c - 1 else pool c) p.1 = T p.1 := by
          intro p hp hne
          have hpg : p.1 ≠ g := by
            intro e
            have hm : p.1 ∈ rest.map Prod.fst := List.mem_map_of_mem Prod.fst hp
            rw [e] at hm
            exact hnd.1 hm
          simp only [hpg, if_false]
          exact hrest p hp hne
        have := ih (fun c => if c = g then pool c - 1 else pool c) hnd.2 hrest2
        simp only [lettersMarked] at this
        have hT : 0 < T g := hP ▸ h0
        simp [specPass2, h, h0, hT, lettersMarked, this]
      · have := ih pool hnd.2 hrest
        simp only [lettersMarked] at this
        have hT : ¬ 0 < T g := hP ▸ h0
        simp only [not_lt, Nat.le_zero] at hT
        simp [specPass2, h, h0, hT, lettersMarked, this]

/-- C2, the returned in-the-word letters are not those of the two-pass
algorithm: for the target "robot" and the guess "boots" the two-pass feedback
is `[Present, Exact, Present, Present, Absent]`, with Present letters
`[b, o, t]`, while `cowsAndBulls` returns the location matches `[o]` and the
in-the-word letters `[b, t]`. -/
theorem cowsAndBulls_not_two_pass :
    boots.length = 5 ∧ robot.length = 5 ∧
    specClassify boots robot =
      [LetterFeedback.Present, LetterFeedback.Exact, LetterFeedback.Present,
       LetterFeedback.Present, LetterFeedback.Absent] ∧
    lettersMarked LetterFeedback.Present boots (specClassify boots robot) = [98, 111, 116] ∧
    cowsAndBulls boots robot = some ([111], [98, 116]) ∧
    ¬ ∃ locMatch, cowsAndBulls boots robot =
        some (locMatch, lettersMarked LetterFeedback.Present boots (specClassify boots robot)) :=
  ⟨by decide, by decide, by decide, by decide, by decide, by
    rintro ⟨locMatch, h⟩
    have h1 : cowsAndBulls boots robot = some ([111], [98, 116]) := by decide
    rw [h1] at h
    simp only [Option.some.injEq, Prod.mk.injEq] at h
    exact absurd h.2 (by decide)⟩

theorem not_mem_agreeing_of_nodup (z : List (Nat × Nat)) (hnd : (z.map Prod.fst).Nodup)
    (p : Nat × Nat) (hp : p ∈ z) (hne : p.1 ≠ p.2) : p.1 ∉ agreeing z := by
  intro hm
  obtain ⟨q, hq, hq1, hq2⟩ := mem_agreeing z p.1 hm
  have e : q = p := List.inj_on_of_nodup_map hnd hq hp hq1
  rw [e] at hq2
  exact hne hq2

/-- C2, as amended: on a 5-letter guess and a 5-letter target, the in-the-word
letters returned by `cowsAndBulls` are exactly, in position order, the guess
letters at the positions `i` where `guess[i] != target[i]`, the letter is found
in the target and the letter is not one of the location-match letters; when the
guess is made of ASCII letters without repetition, these are the letters the
two-pass count-consuming algorithm marks Present. -/
theorem cowsAndBulls_inWord (guess pick : Str)
    (hg : guess.length = 5) (hp : pick.length = 5) :
    ∃ locMatch nonLocMatch, cowsAndBulls guess pick = some (locMatch, nonLocMatch) ∧
      nonLocMatch = ((List.range 5).filter (fun i =>
          (!(guess.getD i 0 == pick.getD i 0) && containsRune pick (guess.getD i 0)) &&
            !contains locMatch (guess.getD i 0))).map (fun i => guess.getD i 0) ∧
      (guess.Nodup → (∀ b ∈ guess, b < 128) →
        nonLocMatch = lettersMarked LetterFeedback.Present guess (specClassify guess pick)) := by
  have hfst : (guess.zip pick).map Prod.fst = guess :=
    List.map_fst_zip guess pick (by omega)
  refine ⟨_, _, cowsAndBulls_eq guess pick hg hp, ?_, ?_⟩
  · rw [elsewhere_filter_eq]
    exact zip_filter_positions _ guess pick hg hp
  · intro hnd hascii
    have hndz : ((guess.zip pick).map Prod.fst).Nodup := by rw [hfst]; exact hnd
    have hmemg : ∀ p ∈ guess.zip pick, p.1 ∈ guess := by
      intro p hp1
      have := List.mem_map_of_mem Prod.fst hp1
      rwa [hfst] at this
    -- the filter against the location matches removes nothing
    have e1 : (elsewhere pick (guess.zip pick)).filter
        (fun v => !contains (agreeing (guess.zip pick)) v) =
        elsewhere pick (guess.zip pick) := by
      rw [List.filter_eq_self]
      intro c hc
      obtain ⟨q, hq, hq1, hq2, _⟩ := mem_elsewhere pick _ c hc
      have hn := not_mem_agreeing_of_nodup _ hndz q hq hq2
      rw [hq1] at hn
      have hcf : contains (agreeing (guess.zip pick)) c = false := by
        rw [← Bool.not_eq_true, contains_eq_true]
        exact hn
      simp [hcf]
    -- on ASCII letters, being found in the target is having a positive count
    have e2 : elsewhere pick (guess.zip pick) =
        ((guess.zip pick).filter
          (fun p => !(p.1 == p.2) && decide (0 < pick.count p.1))).map Prod.fst := by
      unfold elsewhere
      congr 1
      apply List.filter_congr
      intro p hp1
      have hb : p.1 < 128 := hascii _ (hmemg p hp1)
      have : containsRune pick p.1 = decide (0 < pick.count p.1) := by
        rw [Bool.eq_iff_iff, containsRune_ascii pick p.1 hb]
        simp [List.count_pos_iff]
      rw [this]
    have e3 := specPass2_present (fun c => pick.count c) (guess.zip pick)
      (specPass1 (fun c => pick.count c) (guess.zip pick)) hndz
      (fun p hp1 hne => specPass1_unchanged _ _ _
        (not_mem_agreeing_of_nodup _ hndz p hp1 hne))
    rw [hfst] at e3
    rw [e1, e2, specClassify, e3]

theorem cowsAndBulls_inWord_witness :
    ∃ locMatch nonLocMatch, cowsAndBulls crate robot = some (locMatch, nonLocMatch) ∧
      nonLocMatch = lettersMarked LetterFeedback.Present crate (specClassify crate robot) := by
  obtain ⟨locMatch, nonLocMatch, h, _, h3⟩ :=
    cowsAndBulls_inWord crate robot (by decide) (by decide)
  exact ⟨locMatch, nonLocMatch, h, h3 (by decide) (by decide)⟩

/-! ## The dictionary filter -/

theorem scanLoop_eq (lines : List Str) :
    ∀ (validWords : List Str), (∀ w ∈ lines, w ≠ []) →
      scanLoop validWords lines = some (validWords ++ lines.filter passesFilters) := by
  induction lines with
  | nil => intro acc _; simp [scanLoop]
  | cons word rest ih =>
    intro acc hne
    have hrest : ∀ w ∈ rest, w ≠ [] := fun w hw => hne w (List.mem_cons_of_mem _ hw)
    have hword : word ≠ [] := hne word (List.mem_cons_self _ _)
    match word, hword with
    | c :: cs, _ =>
      simp only [scanLoop, List.getElem?_cons_zero, List.filter_cons, passesFilters,
        List.headD_cons]
      by_cases h1 : 65 ≤ c ∧ c ≤ 90
      · simp [h1, ih acc hrest]
      · by_cases h2 : containsAny (c :: cs) [39] = true
        · simp [h1, h2, ih acc hrest]
        · simp only [Bool.not_eq_true] at h2
          by_cases h3 : cs.length = 4
          · simp [h1, h2, h3, ih _ hrest]
          · simp [h1, h2, h3, ih acc hrest]

theorem scanLoop_some_nonempty (lines : List Str) :
    ∀ (validWords dict : List Str), scanLoop validWords lines = some dict →
      ∀ w ∈ lines, w ≠ [] := by
  induction lines with
  | nil => intro _ _ _ w hw; simp at hw
  | cons word rest ih =>
    intro acc dict h w hw
    match word with
    | [] => simp [scanLoop] at h
    | c :: cs =>
      rcases List.mem_cons.1 hw with rfl | hw
      · simp
      · simp only [scanLoop, List.getElem?_cons_zero] at h
        split_ifs at h
        all_goals exact ih _ _ h w hw

theorem containsAny_apostrophe (word : Str) :
    containsAny word [39] = true ↔ 39 ∈ word := by
  unfold containsAny
  rw [List.any_eq_true]
  constructor
  · rintro ⟨b, hb, h⟩
    have e : b = 39 := by simpa using h
    rw [← e]; exact hb
  · intro h
    exact ⟨39, h, by simp⟩

theorem passesFilters_iff (word : Str) :
    passesFilters word = true ↔
      ¬ (65 ≤ word.headD 0 ∧ word.headD 0 ≤ 90) ∧ 39 ∉ word ∧ word.length = 5 := by
  simp only [passesFilters, Bool.and_eq_true, Bool.not_eq_true', decide_eq_false_iff_not,
    beq_iff_eq, ← Bool.not_eq_true, containsAny_apostrophe, and_assoc, decide_eq_true_eq]

/-- C5: for every word file whose candidate words, as the scanner delivers
them, are non-empty, the filter of
`initializeWords` builds a dictionary, and every word it admits has length 5,
contains no apostrophe and has a first character that is not an uppercase
letter `'A'..'Z'`. -/
theorem initializeWords_members (lines : List Str)
    (hne : ∀ w ∈ scanLines lines, w ≠ []) :
    ∃ dict, initializeWords lines = some dict ∧
      ∀ w ∈ dict, w.length = 5 ∧ 39 ∉ w ∧
        ∃ c, w[0]? = some c ∧ ¬ (65 ≤ c ∧ c ≤ 90) := by
  refine ⟨_, scanLoop_eq (scanLines lines) [] hne, ?_⟩
  intro w hw
  simp only [List.nil_append, List.mem_filter] at hw
  obtain ⟨h1, h2, h3⟩ := (passesFilters_iff w).1 hw.2
  refine ⟨h3, h2, ?_⟩
  match w, h3 with
  | c :: cs, _ => exact ⟨c, by simp, by simpa using h1⟩

theorem initializeWords_members_witness :
    ∃ dict, initializeWords [robot, upperRobot, iPads, [100, 111, 110, 39, 116]] = some dict ∧
      ∀ w ∈ dict, w.length = 5 ∧ 39 ∉ w ∧
        ∃ c, w[0]? = some c ∧ ¬ (65 ≤ c ∧ c ≤ 90) :=
  initializeWords_members [robot, upperRobot, iPads, [100, 111, 110, 39, 116]] (by decide)

/-- C6, a dictionary member need not be lowercase: the raw word "iPads" passes
the three tests of the filter and holds the uppercase letter `P`. -/
theorem initializeWords_not_lowercase :
    initializeWords [iPads] = some [iPads] ∧
      ¬ ∀ w ∈ [iPads], ∀ b ∈ w, 97 ≤ b ∧ b ≤ 122 :=
  ⟨by decide, by decide⟩

/-- C6, as amended: every member of a dictionary built by the filter of
`initializeWords` has a first character that is not an uppercase letter
`'A'..'Z'`, so that a member made of ASCII letters only starts with a
lowercase letter; the characters after the first are not tested for case. -/
theorem initializeWords_first_not_upper (lines dict : List Str)
    (h : initializeWords lines = some dict) :
    ∀ w ∈ dict, ∃ c, w[0]? = some c ∧ ¬ (65 ≤ c ∧ c ≤ 90) ∧
      ((∀ b ∈ w, (65 ≤ b ∧ b ≤ 90) ∨ (97 ≤ b ∧ b ≤ 122)) → 97 ≤ c ∧ c ≤ 122) := by
  have hne := scanLoop_some_nonempty (scanLines lines) [] dict h
  have e := scanLoop_eq (scanLines lines) [] hne
  rw [initializeWords] at h
  rw [h] at e
  simp only [List.nil_append, Option.some.injEq] at e
  intro w hw
  rw [e, List.mem_filter] at hw
  obtain ⟨h1, _, h3⟩ := (passesFilters_iff w).1 hw.2
  match w, h3 with
  | c :: cs, _ =>
    have hc : ¬ (65 ≤ c ∧ c ≤ 90) := by simpa using h1
    refine ⟨c, by simp, hc, ?_⟩
    intro hall
    rcases hall c (List.mem_cons_self _ _) with hu | hl
    · exact absurd hu hc
    · exact hl

theorem initializeWords_first_not_upper_witness :
    initializeWords [robot, upperRobot, iPads] = some [robot, iPads] ∧
    ∃ c, robot[0]? = some c ∧ ¬ (65 ≤ c ∧ c ≤ 90) ∧ 97 ≤ c ∧ c ≤ 122 := by
  obtain ⟨c, h1, h2, h3⟩ :=
    initializeWords_first_not_upper [robot, upperRobot, iPads] [robot, iPads] (by decide)
      robot (by decide)
  exact ⟨by decide, c, h1, h2, h3 (by decide)⟩

/-! ## Validity of a guess -/

/-- C10: `isValid(word, words)` is true exactly when `len(word) == 5` and some
element of `words` equals `word` byte for byte (so the test is case-sensitive:
"ROBOT" is not valid for the dictionary holding "robot"), and `in(words, word)`
is true exactly when `word` is an element of `words`. -/
theorem isValid_iff (word : Str) (words : List Str) :
    (isValid word words = true ↔ word.length = 5 ∧ ∃ v ∈ words, v = word) ∧
    (inList words word = true ↔ word ∈ words) ∧
    isValid upperRobot [robot] = false := by
  refine ⟨?_, inList_eq_true words word, by decide⟩
  simp [isValid, inList_eq_true]

/-! ## The game loop -/

theorem isValid_length (word : Str) (words : List Str) (h : isValid word words = true) :
    word.length = 5 := by
  simp only [isValid, Bool.and_eq_true, beq_iff_eq] at h
  exact h.1

theorem isValid_eq_false_iff (word : Str) (words : List Str) :
    isValid word words = false ↔ (word.length ≠ 5 ∨ word ∉ words) := by
  rw [← Bool.not_eq_true, isValid, Bool.and_eq_true, inList_eq_true, beq_iff_eq]
  tauto

theorem gameLoop_done (validWords : List Str) (pickedWord : Str) (st : Game)
    (inputs : List Input) (h : ¬ st.guessCount < 6) :
    gameLoop validWords pickedWord st inputs = LoopResult.finished st inputs := by
  cases inputs with
  | nil => simp [gameLoop, h]
  | cons inp rest => simp [gameLoop, h]

theorem loopBody_valid_other (validWords : List Str) (pickedWord : Str) (st : Game)
    (s : Str) (hv : isValid s validWords = true) (hne : s ≠ pickedWord)
    (hp : pickedWord.length = 5) :
    loopBody validWords pickedWord st (Input.str s) =
      BodyResult.next (Game.mk (st.guessCount + 1) st.found) := by
  simp only [loopBody, hv, hne, Bool.not_true, Bool.false_eq_true, if_false]
  rw [cowsAndBulls_eq s pickedWord (isValid_length s validWords hv) hp]

/-- C7: a submitted string that is not a valid guess (length not 5, or not in
the dictionary) leaves the loop variables as they were: the attempt count
stays `n`, the game is not ended, and a running loop goes on with the next
input in the same state. -/
theorem invalid_guess_free (validWords : List Str) (pickedWord : Str) (st : Game)
    (str : Str) (rest : List Input) (hinv : str.length ≠ 5 ∨ str ∉ validWords) :
    isValid str validWords = false ∧
    loopBody validWords pickedWord st (Input.str str) = BodyResult.next st ∧
    (st.guessCount < 6 →
      gameLoop validWords pickedWord st (Input.str str :: rest) =
        gameLoop validWords pickedWord st rest) := by
  have hf : isValid str validWords = false := (isValid_eq_false_iff str validWords).2 hinv
  have hb : loopBody validWords pickedWord st (Input.str str) = BodyResult.next st := by
    simp [loopBody, hf]
  refine ⟨hf, hb, ?_⟩
  intro hrun
  rw [gameLoop, if_pos hrun, hb]

theorem invalid_guess_free_witness :
    isValid upperRobot [robot, boots] = false ∧
    loopBody [robot, boots] robot (Game.mk 3 false) (Input.str upperRobot) =
      BodyResult.next (Game.mk 3 false) ∧
    gameLoop [robot, boots] robot (Game.mk 3 false) (Input.str upperRobot :: [Input.str boots]) =
      gameLoop [robot, boots] robot (Game.mk 3 false) [Input.str boots] :=
  have h := invalid_guess_free [robot, boots] robot (Game.mk 3 false) upperRobot
    [Input.str boots] (by decide)
  ⟨h.1, h.2.1, h.2.2 (by decide)⟩

/-- While fewer than six valid guesses have been evaluated and none of them is
the picked word, the loop reads on. -/
theorem gameLoop_reads_on (validWords : List Str) (pickedWord : Str)
    (hp : pickedWord.length = 5) (pre : List Input) :
    ∀ (st : Game) (tail : List Input),
      st.guessCount + (validGuesses validWords pre).length < 6 →
      pickedWord ∉ validGuesses validWords pre →
      gameLoop validWords pickedWord st (pre ++ tail) =
        gameLoop validWords pickedWord
          (Game.mk (st.guessCount + (validGuesses validWords pre).length) st.found) tail := by
  induction pre with
  | nil => intro st tail _ _; simp [validGuesses]
  | cons inp rest ih =>
    intro st tail hlt hnot
    cases inp with
    | err =>
      simp only [validGuesses] at hlt hnot ⊢
      have hrun : st.guessCount < 6 := by omega
      rw [List.cons_append, gameLoop, if_pos hrun]
      simp only [loopBody]
      exact ih st tail hlt hnot
    | str s =>
      by_cases hv : isValid s validWords = true
      · simp only [validGuesses, hv, if_true, List.length_cons, List.mem_cons, not_or] at hlt hnot ⊢
        have hrun : st.guessCount < 6 := by omega
        have hne : s ≠ pickedWord := fun e => hnot.1 e.symm
        rw [List.cons_append, gameLoop, if_pos hrun,
          loopBody_valid_other validWords pickedWord st s hv hne hp]
        simp only
        rw [ih (Game.mk (st.guessCount + 1) st.found) tail (by simp only; omega) hnot.2]
        simp only [Nat.add_assoc, Nat.add_comm 1]
      · simp only [Bool.not_eq_true] at hv
        simp only [validGuesses, hv, Bool.false_eq_true, if_false] at hlt hnot ⊢
        have hrun : st.guessCount < 6 := by omega
        rw [List.cons_append, gameLoop, if_pos hrun]
        simp only [loopBody, hv, Bool.not_false, if_true]
        exact ih st tail hlt hnot

/-- What can be said of a loop that has finished. -/
theorem gameLoop_finished (validWords : List Str) (pickedWord : Str) (inputs : List Input) :
    ∀ (st fin : Game) (rest : List Input), st.found = false → st.guessCount ≤ 6 →
      gameLoop validWords pickedWord st inputs = LoopResult.finished fin rest →
      ∃ consumed, inputs = consumed ++ rest ∧
        fin.guessCount = st.guessCount + (validGuesses validWords consumed).length ∧
        ((fin.found = true ∧ pickedWord ∈ validGuesses validWords consumed) ∨
         (fin.found = false ∧ fin.guessCount = 6 ∧
            pickedWord ∉ validGuesses validWords consumed)) := by
  induction inputs with
  | nil =>
    intro st fin rest hf hle h
    by_cases hrun : st.guessCount < 6
    · simp [gameLoop, hrun] at h
    · simp only [gameLoop, hrun, if_false, LoopResult.finished.injEq] at h
      obtain ⟨rfl, rfl⟩ := h
      exact ⟨[], rfl, by simp [validGuesses], Or.inr ⟨hf, by omega, by simp [validGuesses]⟩⟩
  | cons inp tl ih =>
    intro st fin rest hf hle h
    by_cases hrun : st.guessCount < 6
    · rw [gameLoop, if_pos hrun] at h
      cases inp with
      | err =>
        simp only [loopBody] at h
        obtain ⟨consumed, e, hc, hcase⟩ := ih st fin rest hf hle h
        exact ⟨Input.err :: consumed, by rw [e]; rfl, by simpa [validGuesses] using hc,
          by simpa [validGuesses] using hcase⟩
      | str s =>
        by_cases hv : isValid s validWords = true
        · by_cases he : s = pickedWord
          · subst he
            simp only [loopBody, hv, Bool.not_true, Bool.false_eq_true, if_false, if_true,
              LoopResult.finished.injEq] at h
            obtain ⟨rfl, rfl⟩ := h
            refine ⟨[Input.str s], rfl, ?_, Or.inl ⟨rfl, ?_⟩⟩
            · simp [validGuesses, hv]
            · simp [validGuesses, hv]
          · simp only [loopBody, hv, he, Bool.not_true, Bool.false_eq_true, if_false] at h
            cases hcb : cowsAndBulls s pickedWord with
            | none => rw [hcb] at h; simp at h
            | some r =>
              rw [hcb] at h
              simp only at h
              obtain ⟨consumed, e, hc, hcase⟩ :=
                ih (Game.mk (st.guessCount + 1) st.found) fin rest hf (by simp only; omega) h
              have hne : ¬ pickedWord = s := fun e1 => he e1.symm
              refine ⟨Input.str s :: consumed, by rw [e]; rfl, ?_, ?_⟩
              · simp only [validGuesses, hv, if_true, List.length_cons]
                simp only at hc
                omega
              · simpa [validGuesses, hv, hne] using hcase
        · simp only [Bool.not_eq_true] at hv
          simp only [loopBody, hv, Bool.not_false, if_true] at h
          obtain ⟨consumed, e, hc, hcase⟩ := ih st fin rest hf hle h
          exact ⟨Input.str s :: consumed, by rw [e]; rfl, by simpa [validGuesses, hv] using hc,
            by simpa [validGuesses, hv] using hcase⟩
    · rw [gameLoop, if_neg hrun] at h
      simp only [LoopResult.finished.injEq] at h
      obtain ⟨rfl, rfl⟩ := h
      exact ⟨[], rfl, by simp [validGuesses], Or.inr ⟨hf, by omega, by simp [validGuesses]⟩⟩

theorem validGuesses_map_str (validWords : List Str) (gs : List Str)
    (h : ∀ g ∈ gs, isValid g validWords = true) :
    validGuesses validWords (gs.map Input.str) = gs := by
  induction gs with
  | nil => rfl
  | cons g rest ih =>
    have hg : isValid g validWords = true := h g (List.mem_cons_self _ _)
    simp only [List.map_cons, validGuesses, hg, if_true]
    rw [ih (fun x hx => h x (List.mem_cons_of_mem _ hx))]

/-- C8: whenever the game loop finishes, the closing message that reveals the
picked word ("You have used up all six attempts") is shown if and only if
exactly six valid guesses were evaluated and none of them equals the picked
word; and six consecutive valid non-winning guesses make the loop finish with
attempt count 6, not found, the message revealing the picked word. -/
theorem game_lost_iff (validWords : List Str) (pickedWord : Str) :
    (∀ (inputs : List Input) (fin : Game) (rest : List Input),
      gameLoop validWords pickedWord initGame inputs = LoopResult.finished fin rest →
      ∃ consumed, inputs = consumed ++ rest ∧
        (lostMessage pickedWord fin = some pickedWord ↔
          ((validGuesses validWords consumed).length = 6 ∧
            pickedWord ∉ validGuesses validWords consumed)) ∧
        (lostMessage pickedWord fin = none ↔
          ¬ ((validGuesses validWords consumed).length = 6 ∧
            pickedWord ∉ validGuesses validWords consumed))) ∧
    (pickedWord.length = 5 → ∀ (gs : List Str) (rest : List Input), gs.length = 6 →
      (∀ g ∈ gs, isValid g validWords = true ∧ g ≠ pickedWord) →
      gameLoop validWords pickedWord initGame (gs.map Input.str ++ rest) =
        LoopResult.finished (Game.mk 6 false) rest ∧
      lostMessage pickedWord (Game.mk 6 false) = some pickedWord) := by
  constructor
  · intro inputs fin rest h
    obtain ⟨consumed, e, hc, hcase⟩ :=
      gameLoop_finished validWords pickedWord inputs initGame fin rest rfl
        (by simp [initGame]) h
    refine ⟨consumed, e, ?_⟩
    simp only [initGame, Nat.zero_add] at hc
    rcases hcase with ⟨hf, hmem⟩ | ⟨hf, h6, hnot⟩
    · simp [lostMessage, hf, hmem]
    · have h6len : (validGuesses validWords consumed).length = 6 := by omega
      simp [lostMessage, hf, h6, h6len, hnot]
  · intro hp gs rest hlen hall
    refine ⟨?_, by simp [lostMessage]⟩
    rcases List.eq_nil_or_concat gs with hnil | ⟨front, last, hgs⟩
    · rw [hnil] at hlen; exact absurd hlen (by decide)
    · rw [List.concat_eq_append] at hgs
      have hfl : front.length = 5 := by
        rw [hgs] at hlen
        simp only [List.length_append, List.length_singleton] at hlen
        omega
      have hfv : ∀ g ∈ front, isValid g validWords = true := fun g hg =>
        (hall g (by rw [hgs]; exact List.mem_append_left _ hg)).1
      have hlast := hall last (by rw [hgs]; simp)
      have hvg := validGuesses_map_str validWords front hfv
      have hnot : pickedWord ∉ validGuesses validWords (front.map Input.str) := by
        rw [hvg]
        intro hm
        exact (hall pickedWord (by rw [hgs]; exact List.mem_append_left _ hm)).2 rfl
      have e : gs.map Input.str ++ rest =
          front.map Input.str ++ (Input.str last :: rest) := by
        rw [hgs]; simp
      rw [e, gameLoop_reads_on validWords pickedWord hp (front.map Input.str) initGame _
        (by rw [hvg, hfl]; simp [initGame]) hnot, hvg, hfl]
      have h5 : (Game.mk (initGame.guessCount + 5) initGame.found).guessCount < 6 := by
        simp [initGame]
      rw [gameLoop, if_pos h5,
        loopBody_valid_other validWords pickedWord _ last hlast.1 hlast.2 hp]
      simp only [initGame]
      exact gameLoop_done validWords pickedWord _ rest (by simp)

theorem game_lost_iff_witness :
    (∃ consumed, [Input.str boots, Input.str upperRobot, Input.str boots, Input.str boots,
          Input.err, Input.str boots, Input.str boots, Input.str boots, Input.str robot] =
        consumed ++ [Input.str robot] ∧
      (lostMessage robot (Game.mk 6 false) = some robot ↔
        ((validGuesses [robot, boots] consumed).length = 6 ∧
          robot ∉ validGuesses [robot, boots] consumed)) ∧
      (lostMessage robot (Game.mk 6 false) = none ↔
        ¬ ((validGuesses [robot, boots] consumed).length = 6 ∧
          robot ∉ validGuesses [robot, boots] consumed))) ∧
    (gameLoop [robot, boots] robot initGame
        ([boots, boots, boots, boots, boots, boots].map Input.str ++ [Input.str robot]) =
        LoopResult.finished (Game.mk 6 false) [Input.str robot] ∧
      lostMessage robot (Game.mk 6 false) = some robot) :=
  ⟨(game_lost_iff [robot, boots] robot).1 _ (Game.mk 6 false) [Input.str robot] (by decide),
   (game_lost_iff [robot, boots] robot).2 (by decide) [boots, boots, boots, boots, boots, boots]
     [Input.str robot] (by decide) (by decide)⟩

/-- C9: if the `k`-th valid guess (`1 <= k <= 6`) is the first one equal to the
picked word, the loop is left at that very step with `found` set and attempt
count exactly `k`, the inputs after that guess are never read, and the closing
lost message is not shown, also when `k = 6`. -/
theorem game_won_at (validWords : List Str) (pickedWord : Str)
    (pre rest : List Input) (k : Nat)
    (hv : isValid pickedWord validWords = true)
    (hk : (validGuesses validWords pre).length + 1 = k) (hk6 : k ≤ 6)
    (hfirst : pickedWord ∉ validGuesses validWords pre) :
    gameLoop validWords pickedWord initGame (pre ++ Input.str pickedWord :: rest) =
      LoopResult.finished (Game.mk k true) rest ∧
    lostMessage pickedWord (Game.mk k true) = none := by
  have hp : pickedWord.length = 5 := isValid_length pickedWord validWords hv
  refine ⟨?_, by simp [lostMessage]⟩
  rw [gameLoop_reads_on validWords pickedWord hp pre initGame _
    (by simp only [initGame]; omega) hfirst]
  have hrun : (Game.mk (initGame.guessCount + (validGuesses validWords pre).length)
      initGame.found).guessCount < 6 := by
    simp only [initGame]; omega
  rw [gameLoop, if_pos hrun]
  simp only [loopBody, hv, Bool.not_true, Bool.false_eq_true, if_false, if_true, initGame,
    Nat.zero_add, hk]

theorem game_won_at_witness :
    gameLoop [robot, boots] robot initGame
        ([Input.str boots, Input.err, Input.str boots, Input.str upperRobot, Input.str boots,
          Input.str boots, Input.str boots] ++ Input.str robot :: [Input.str boots]) =
      LoopResult.finished (Game.mk 6 true) [Input.str boots] ∧
    lostMessage robot (Game.mk 6 true) = none :=
  game_won_at [robot, boots] robot
    [Input.str boots, Input.err, Input.str boots, Input.str upperRobot, Input.str boots,
      Input.str boots, Input.str boots] [Input.str boots] 6
    (by decide) (by decide) (by decide) (by decide)

/-! ## Case of the raw guess -/

theorem initializeWords_eq_filter (lines dict : List Str)
    (h : initializeWords lines = some dict) :
    dict = (scanLines lines).filter passesFilters := by
  have hne := scanLoop_some_nonempty (scanLines lines) [] dict h
  have e := scanLoop_eq (scanLines lines) [] hne
  rw [initializeWords] at h
  rw [h] at e
  simpa using e

theorem initializeWords_length (lines dict : List Str)
    (h : initializeWords lines = some dict) : ∀ w ∈ dict, w.length = 5 := by
  intro w hw
  rw [initializeWords_eq_filter lines dict h, List.mem_filter] at hw
  exact ((passesFilters_iff w).1 hw.2).2.2

theorem isValid_of_mem (word : Str) (words : List Str) (hl : word.length = 5)
    (hm : word ∈ words) : isValid word words = true := by
  simp [isValid, hl, (inList_eq_true words word).2 hm]

/-- C11, the raw guess is not normalized: with the dictionary holding "robot",
the input "ROBOT" is rejected by `isValid` and the loop body leaves the
attempt count where it was. -/
theorem uppercase_guess_rejected :
    initializeWords [robot, boots] = some [robot, boots] ∧
    isValid upperRobot [robot, boots] = false ∧
    loopBody [robot, boots] boots initGame (Input.str upperRobot) = BodyResult.next initGame ∧
    gameLoop [robot, boots] boots initGame [Input.str upperRobot] =
      LoopResult.blocked (Game.mk 0 false) :=
  ⟨by decide, by decide, by decide, by decide⟩

/-- C11, as amended: the raw guess is validated as typed, byte for byte.  For
a dictionary built by `initializeWords` and a picked word taken from it, a raw
input equal to a dictionary word is treated as a valid guess and consumes an
attempt (winning when it is the picked word), and a raw input that is not
itself a dictionary word, such as one differing from a dictionary word in
letter case, is rejected and consumes no attempt. -/
theorem exact_guess_consumes (lines validWords : List Str) (pickedWord : Str) (st : Game)
    (hdict : initializeWords lines = some validWords) (hpick : pickedWord ∈ validWords) :
    (∀ w ∈ validWords, isValid w validWords = true ∧
      loopBody validWords pickedWord st (Input.str w) =
        if w = pickedWord then BodyResult.brk (Game.mk (st.guessCount + 1) true)
        else BodyResult.next (Game.mk (st.guessCount + 1) st.found)) ∧
    (∀ raw, raw ∉ validWords → isValid raw validWords = false ∧
      loopBody validWords pickedWord st (Input.str raw) = BodyResult.next st) := by
  have hlen := initializeWords_length lines validWords hdict
  constructor
  · intro w hw
    have hv : isValid w validWords = true := isValid_of_mem w validWords (hlen w hw) hw
    refine ⟨hv, ?_⟩
    by_cases e : w = pickedWord
    · rw [if_pos e]
      subst e
      simp [loopBody, hv]
    · rw [if_neg e]
      exact loopBody_valid_other validWords pickedWord st w hv e (hlen pickedWord hpick)
  · intro raw hraw
    have hf : isValid raw validWords = false :=
      (isValid_eq_false_iff raw validWords).2 (Or.inr hraw)
    exact ⟨hf, by simp [loopBody, hf]⟩

theorem exact_guess_consumes_witness :
    (isValid robot [robot, boots] = true ∧
      loopBody [robot, boots] boots (Game.mk 2 false) (Input.str robot) =
        BodyResult.next (Game.mk 3 false)) ∧
    (isValid upperRobot [robot, boots] = false ∧
      loopBody [robot, boots] boots (Game.mk 2 false) (Input.str upperRobot) =
        BodyResult.next (Game.mk 2 false)) :=
  have h := exact_guess_consumes [robot, upperRobot, boots] [robot, boots] boots
    (Game.mk 2 false) (by decide) (by decide)
  ⟨h.1 robot (by decide), h.2 upperRobot (by decide)⟩

/-! ## An empty dictionary -/

theorem randIntn_zero (seed : Nat) : randIntn seed 0 = none := rfl

/-- C12, dictionary construction raises no empty-dictionary error: from a
word list whose only candidate is capitalized, `initializeWords` returns the
empty dictionary, and `main` goes on to call `pickRandomWord` on it. -/
theorem initializeWords_returns_empty :
    initializeWords [upperRobot] = some [] ∧
    initializeWords [upperRobot] ≠ none ∧
    pickRandomWord [] 0 = none ∧
    main [upperRobot] 0 [Input.str robot] = none :=
  ⟨by decide, by decide, by decide, by decide⟩

/-- C12, as amended: for every word file whose candidate words, as the scanner
delivers them, are non-empty and of
which the filter admits no word, `initializeWords` returns normally, and what
it returns is the empty dictionary; dictionary construction itself raises no
error. -/
theorem initializeWords_empty (lines : List Str) (hne : ∀ w ∈ scanLines lines, w ≠ [])
    (hnone : ∀ w ∈ scanLines lines, ¬ (w.length = 5 ∧ 39 ∉ w ∧
      ¬ (65 ≤ w.headD 0 ∧ w.headD 0 ≤ 90))) :
    initializeWords lines = some [] := by
  rw [initializeWords, scanLoop_eq (scanLines lines) [] hne]
  simp only [List.nil_append, Option.some.injEq, List.filter_eq_nil_iff]
  intro w hw hp
  obtain ⟨h1, h2, h3⟩ := (passesFilters_iff w).1 hp
  exact hnone w hw ⟨h3, h2, h1⟩

theorem initializeWords_empty_witness :
    initializeWords [upperRobot, [100, 111, 110, 39, 116], [97, 98]] = some [] :=
  initializeWords_empty [upperRobot, [100, 111, 110, 39, 116], [97, 98]]
    (by decide) (by decide)

/-! ## Indexing in `cowsAndBulls` -/

theorem pickRandomWord_mem (validWords : List Str) (seed : Nat) (pickedWord : Str)
    (h : pickRandomWord validWords seed = some pickedWord) : pickedWord ∈ validWords := by
  unfold pickRandomWord at h
  cases hr : randIntn seed validWords.length with
  | none => rw [hr] at h; simp at h
  | some k =>
    rw [hr] at h
    exact List.getElem?_mem h

theorem loopBody_no_panic (validWords : List Str) (pickedWord : Str)
    (hp : pickedWord.length = 5) (st : Game) (inp : Input) :
    loopBody validWords pickedWord st inp ≠ BodyResult.panicked := by
  cases inp with
  | err => simp [loopBody]
  | str s =>
    by_cases hv : isValid s validWords = true
    · by_cases e : s = pickedWord
      · subst e
        simp [loopBody, hv]
      · rw [loopBody_valid_other validWords pickedWord st s hv e hp]
        simp
    · simp only [Bool.not_eq_true] at hv
      simp [loopBody, hv]

theorem gameLoop_no_panic (validWords : List Str) (pickedWord : Str)
    (hp : pickedWord.length = 5) (inputs : List Input) :
    ∀ (st : Game), gameLoop validWords pickedWord st inputs ≠ LoopResult.panicked := by
  induction inputs with
  | nil =>
    intro st
    by_cases hrun : st.guessCount < 6 <;> simp [gameLoop, hrun]
  | cons inp rest ih =>
    intro st
    by_cases hrun : st.guessCount < 6
    · rw [gameLoop, if_pos hrun]
      have hb := loopBody_no_panic validWords pickedWord hp st inp
      cases hr : loopBody validWords pickedWord st inp with
      | next st1 => simpa using ih st1
      | brk st1 => simp
      | panicked => exact absurd hr hb
    · simp [gameLoop, hrun]

/-- C13: with the dictionary built by `initializeWords` and the word picked
from it by `pickRandomWord`, the picked word has length 5, and whenever the
loop body reaches the call of `cowsAndBulls` (a valid guess other than the
picked word) the guess has length 5 too, every index `guess[i]`, `pick[i]` for
`i` in `0..4` is in range and the call returns; neither the loop body nor the
loop ever takes the out-of-range branch. -/
theorem cowsAndBulls_call_in_range (lines validWords : List Str) (seed : Nat)
    (pickedWord : Str) (hdict : initializeWords lines = some validWords)
    (hpick : pickRandomWord validWords seed = some pickedWord) :
    pickedWord.length = 5 ∧
    (∀ str, isValid str validWords = true → str ≠ pickedWord →
      str.length = 5 ∧
      (∀ i, i < 5 → ∃ g p, str[i]? = some g ∧ pickedWord[i]? = some p) ∧
      ∃ r, cowsAndBulls str pickedWord = some r) ∧
    (∀ st inp, loopBody validWords pickedWord st inp ≠ BodyResult.panicked) ∧
    (∀ st inputs, gameLoop validWords pickedWord st inputs ≠ LoopResult.panicked) ∧
    (∀ inputs, main lines seed inputs ≠ some LoopResult.panicked) := by
  have hp : pickedWord.length = 5 :=
    initializeWords_length lines validWords hdict pickedWord
      (pickRandomWord_mem validWords seed pickedWord hpick)
  refine ⟨hp, ?_, loopBody_no_panic validWords pickedWord hp,
    fun st inputs => gameLoop_no_panic validWords pickedWord hp inputs st, ?_⟩
  · intro str hv _
    have hs : str.length = 5 := isValid_length str validWords hv
    refine ⟨hs, ?_, _, cowsAndBulls_eq str pickedWord hs hp⟩
    intro i hi
    exact ⟨str[i], pickedWord[i], List.getElem?_eq_getElem (by omega),
      List.getElem?_eq_getElem (by omega)⟩
  · intro inputs
    simp only [main, hdict, hpick, ne_eq, Option.some.injEq]
    exact gameLoop_no_panic validWords pickedWord hp inputs initGame

theorem cowsAndBulls_call_in_range_witness :
    robot.length = 5 ∧
    (boots.length = 5 ∧
      (∀ i, i < 5 → ∃ g p, boots[i]? = some g ∧ robot[i]? = some p) ∧
      ∃ r, cowsAndBulls boots robot = some r) ∧
    main [robot, upperRobot, boots] 4 [Input.str boots, Input.str robot] ≠
      some LoopResult.panicked :=
  have h := cowsAndBulls_call_in_range [robot, upperRobot, boots] [robot, boots] 4 robot
    (by decide) (by decide)
  ⟨h.1, h.2.1 boots (by decide) (by decide), h.2.2.2.2 _⟩

/-! ## Empty lines, and the dictionary as a filtered list -/

/-- C14, an empty candidate is not skipped: any word file in which the scanner
delivers an empty string makes the scanner loop of `initializeWords`
panic at `word[0]`, so no dictionary is built. -/
theorem initializeWords_empty_line (lines : List Str) (h : [] ∈ scanLines lines) :
    initializeWords lines = none := by
  cases hr : initializeWords lines with
  | none => rfl
  | some dict =>
    exact absurd rfl (scanLoop_some_nonempty (scanLines lines) [] dict hr [] h)

theorem initializeWords_empty_line_witness :
    initializeWords [robot, [], boots] = none :=
  initializeWords_empty_line [robot, [], boots] (by decide)

theorem scanLines_eq_map (lines : List Str)
    (h : ∀ w ∈ lines, w.length < maxScanTokenSize) : scanLines lines = lines.map dropCR := by
  induction lines with
  | nil => rfl
  | cons line rest ih =>
    have h1 : ¬ maxScanTokenSize ≤ line.length := by
      have := h line (List.mem_cons_self _ _)
      omega
    rw [scanLines, if_neg h1, ih (fun w hw => h w (List.mem_cons_of_mem _ hw)), List.map_cons]

theorem map_dropCR_eq_self (lines : List Str) (h : ∀ w ∈ lines, w.getLast? ≠ some 13) :
    lines.map dropCR = lines := by
  induction lines with
  | nil => rfl
  | cons line rest ih =>
    rw [List.map_cons, ih (fun w hw => h w (List.mem_cons_of_mem _ hw)), dropCR,
      if_neg (h line (List.mem_cons_self _ _))]

theorem scanLines_long_line (pre post : List Str) (h : ∀ w ∈ pre, w.length < maxScanTokenSize) :
    scanLines (pre ++ longLine :: post) = pre.map dropCR := by
  induction pre with
  | nil =>
    have hl : maxScanTokenSize ≤ longLine.length := by
      rw [longLine, List.length_replicate]
      exact Nat.le_refl _
    rw [List.nil_append, scanLines, if_pos hl, List.map_nil]
  | cons line rest ih =>
    have h1 : ¬ maxScanTokenSize ≤ line.length := by
      have := h line (List.mem_cons_self _ _)
      omega
    rw [List.cons_append, scanLines, if_neg h1,
      ih (fun w hw => h w (List.mem_cons_of_mem _ hw)), List.map_cons]

/-- C15, a word passing the three tests is dropped: in the word file with the
lines "robot", a line of 65536 letters and "boots", every line is non-empty and
"boots" has length 5, no apostrophe and a lowercase first letter, but the scan
ends at the long line and the dictionary built is `["robot"]`. -/
theorem initializeWords_stops_at_long_line :
    robot ≠ [] ∧ longLine ≠ [] ∧ boots ≠ [] ∧
    initializeWords [robot, longLine, boots] = some [robot] ∧
    boots ∈ [robot, longLine, boots] ∧
    (boots.length = 5 ∧ 39 ∉ boots ∧ ¬ (65 ≤ boots.headD 0 ∧ boots.headD 0 ≤ 90)) ∧
    boots ∉ [robot] ∧
    [robot] ≠ [robot, longLine, boots].filter (fun w => decide (w.length = 5 ∧ 39 ∉ w ∧
      ¬ (65 ≤ w.headD 0 ∧ w.headD 0 ≤ 90))) := by
  have hscan : scanLines [robot, longLine, boots] = [robot] :=
    (scanLines_long_line [robot] [boots] (by decide)).trans (by decide)
  have hlong : longLine ≠ [] := by
    intro h
    have hl := congrArg List.length h
    rw [longLine, List.length_replicate] at hl
    exact absurd hl (by decide)
  have hmem : boots ∈ [robot, longLine, boots] :=
    List.mem_cons_of_mem _ (List.mem_cons_of_mem _ (List.mem_cons_self _ _))
  refine ⟨by decide, hlong, by decide, ?_, hmem, by decide, by decide, ?_⟩
  · rw [initializeWords, hscan]
    decide
  · intro h
    have hm : boots ∈ [robot, longLine, boots].filter (fun w => decide (w.length = 5 ∧
        39 ∉ w ∧ ¬ (65 ≤ w.headD 0 ∧ w.headD 0 ≤ 90))) :=
      List.mem_filter.2 ⟨hmem, by decide⟩
    rw [← h] at hm
    exact absurd hm (by decide)

/-- C15, as amended: for every word file all of whose lines are shorter than
65536 bytes and hold a non-empty candidate word (the line without a trailing
carriage return), `initializeWords` returns exactly the candidate words
filtered, order and duplicates kept, by the three tests length 5, no
apostrophe, first character outside `'A'..'Z'`; the result is a sublist of the
candidate words, every occurrence of a word passing the three tests is kept,
and no other word is; when no line ends in a carriage return the candidate
words are the raw lines themselves. -/
theorem initializeWords_exact (lines : List Str)
    (hshort : ∀ w ∈ lines, w.length < 65536) (hne : ∀ w ∈ lines, dropCR w ≠ []) :
    ∃ dict, initializeWords lines = some dict ∧
      dict = (lines.map dropCR).filter (fun w => decide (w.length = 5 ∧ 39 ∉ w ∧
        ¬ (65 ≤ w.headD 0 ∧ w.headD 0 ≤ 90))) ∧
      dict.Sublist (lines.map dropCR) ∧
      (∀ w, dict.count w =
        if w.length = 5 ∧ 39 ∉ w ∧ ¬ (65 ≤ w.headD 0 ∧ w.headD 0 ≤ 90)
        then (lines.map dropCR).count w else 0) ∧
      ((∀ w ∈ lines, w.getLast? ≠ some 13) →
        dict = lines.filter (fun w => decide (w.length = 5 ∧ 39 ∉ w ∧
          ¬ (65 ≤ w.headD 0 ∧ w.headD 0 ≤ 90))) ∧ dict.Sublist lines) := by
  have hscan : scanLines lines = lines.map dropCR := scanLines_eq_map lines hshort
  have hne2 : ∀ w ∈ lines.map dropCR, w ≠ [] := by
    intro w hw
    obtain ⟨l, hl, rfl⟩ := List.mem_map.1 hw
    exact hne l hl
  have hf : ∀ (ws : List Str), ws.filter passesFilters =
      ws.filter (fun w => decide (w.length = 5 ∧
        39 ∉ w ∧ ¬ (65 ≤ w.headD 0 ∧ w.headD 0 ≤ 90))) := by
    intro ws
    apply List.filter_congr
    intro w _
    rw [Bool.eq_iff_iff, passesFilters_iff, decide_eq_true_iff]
    tauto
  refine ⟨(lines.map dropCR).filter passesFilters, ?_, hf _, List.filter_sublist _, ?_, ?_⟩
  · rw [initializeWords, hscan, scanLoop_eq (lines.map dropCR) [] hne2, List.nil_append]
  · intro w
    rw [hf]
    by_cases hw : w.length = 5 ∧ 39 ∉ w ∧ ¬ (65 ≤ w.headD 0 ∧ w.headD 0 ≤ 90)
    · rw [if_pos hw]
      exact List.count_filter (decide_eq_true hw)
    · rw [if_neg hw, List.count_eq_zero]
      intro hm
      exact hw (of_decide_eq_true (List.mem_filter.1 hm).2)
  · intro hcr
    rw [map_dropCR_eq_self lines hcr]
    exact ⟨hf lines, List.filter_sublist lines⟩

theorem initializeWords_exact_witness :
    ∃ dict, initializeWords [robot, upperRobot, boots, [97, 98], robot] = some dict ∧
      dict = [robot, boots, robot] ∧
      dict = [robot, upperRobot, boots, [97, 98], robot].filter
        (fun w => decide (w.length = 5 ∧ 39 ∉ w ∧
          ¬ (65 ≤ w.headD 0 ∧ w.headD 0 ≤ 90))) ∧
      dict.Sublist [robot, upperRobot, boots, [97, 98], robot] := by
  obtain ⟨dict, h1, _, _, _, h5⟩ :=
    initializeWords_exact [robot, upperRobot, boots, [97, 98], robot] (by decide) (by decide)
  obtain ⟨h6, h7⟩ := h5 (by decide)
  refine ⟨dict, h1, ?_, h6, h7⟩
  rw [h6]
  decide

/-! ## The attempt count -/

/-- What can be said of a loop that waits for its next input. -/
theorem gameLoop_blocked (validWords : List Str) (pickedWord : Str) (inputs : List Input) :
    ∀ (st fin : Game),
      gameLoop validWords pickedWord st inputs = LoopResult.blocked fin →
      fin.guessCount = st.guessCount + (validGuesses validWords inputs).length ∧
        fin.guessCount < 6 ∧ fin.found = st.found := by
  induction inputs with
  | nil =>
    intro st fin h
    by_cases hrun : st.guessCount < 6
    · simp only [gameLoop, hrun, if_true, LoopResult.blocked.injEq] at h
      subst h
      exact ⟨by simp [validGuesses], hrun, rfl⟩
    · simp [gameLoop, hrun] at h
  | cons inp tl ih =>
    intro st fin h
    by_cases hrun : st.guessCount < 6
    · rw [gameLoop, if_pos hrun] at h
      cases inp with
      | err =>
        simp only [loopBody] at h
        simpa [validGuesses] using ih st fin h
      | str s =>
        by_cases hv : isValid s validWords = true
        · by_cases he : s = pickedWord
          · subst he
            simp [loopBody, hv] at h
          · simp only [loopBody, hv, he, Bool.not_true, Bool.false_eq_true, if_false] at h
            cases hcb : cowsAndBulls s pickedWord with
            | none => rw [hcb] at h; simp at h
            | some r =>
              rw [hcb] at h
              simp only at h
              obtain ⟨h1, h2, h3⟩ := ih (Game.mk (st.guessCount + 1) st.found) fin h
              refine ⟨?_, h2, h3⟩
              simp only [validGuesses, hv, if_true, List.length_cons]
              simp only at h1
              omega
        · simp only [Bool.not_eq_true] at hv
          simp only [loopBody, hv, Bool.not_false, if_true] at h
          simpa [validGuesses, hv] using ih st fin h
    · simp [gameLoop, hrun] at h

/-- The loop never leaves with an attempt count above 6. -/
theorem gameLoop_count_le (validWords : List Str) (pickedWord : Str) (inputs : List Input) :
    ∀ (st fin : Game) (rest : List Input), st.guessCount ≤ 6 →
      gameLoop validWords pickedWord st inputs = LoopResult.finished fin rest →
      fin.guessCount ≤ 6 := by
  induction inputs with
  | nil =>
    intro st fin rest hle h
    by_cases hrun : st.guessCount < 6
    · simp [gameLoop, hrun] at h
    · simp only [gameLoop, hrun, if_false, LoopResult.finished.injEq] at h
      rw [← h.1]; exact hle
  | cons inp tl ih =>
    intro st fin rest hle h
    by_cases hrun : st.guessCount < 6
    · rw [gameLoop, if_pos hrun] at h
      cases hr : loopBody validWords pickedWord st inp with
      | panicked => rw [hr] at h; simp at h
      | next st1 =>
        rw [hr] at h
        simp only at h
        have h1 : st1.guessCount ≤ 6 := by
          cases inp with
          | err => simp only [loopBody, BodyResult.next.injEq] at hr; rw [← hr]; exact hle
          | str s =>
            simp only [loopBody] at hr
            split_ifs at hr
            · simp only [BodyResult.next.injEq] at hr; rw [← hr]; exact hle
            · cases hcb : cowsAndBulls s pickedWord with
              | none => rw [hcb] at hr; simp at hr
              | some r =>
                rw [hcb] at hr
                simp only [BodyResult.next.injEq] at hr
                rw [← hr]; simp only; omega
        exact ih st1 fin rest h1 h
      | brk st1 =>
        rw [hr] at h
        simp only [LoopResult.finished.injEq] at h
        cases inp with
        | err => simp [loopBody] at hr
        | str s =>
          simp only [loopBody] at hr
          split_ifs at hr
          · simp only [BodyResult.brk.injEq] at hr
            rw [← h.1, ← hr]; simp only; omega
          · cases hcb : cowsAndBulls s pickedWord with
            | none => rw [hcb] at hr; simp at hr
            | some r => rw [hcb] at hr; simp at hr
    · rw [gameLoop, if_neg hrun] at h
      simp only [LoopResult.finished.injEq] at h
      rw [← h.1]; exact hle

/-- C16: run from the initial state (attempt count 0, not found) on any
inputs, the loop is only ever in states whose attempt count lies between 0 and
6 and equals the number of valid guesses evaluated so far: while it waits for
an input the count is that of the valid guesses among all inputs read and is
below 6, and when it is left the count is that of the valid guesses among the
inputs it consumed, at most 6; once the count is 6 no further input is read,
so a seventh valid guess is never accepted. -/
theorem attempt_count_invariant (validWords : List Str) (pickedWord : Str)
    (inputs : List Input) :
    (∀ st, gameLoop validWords pickedWord initGame inputs = LoopResult.blocked st →
      st.guessCount = (validGuesses validWords inputs).length ∧
        0 ≤ st.guessCount ∧ st.guessCount < 6 ∧ st.found = false) ∧
    (∀ st rest, gameLoop validWords pickedWord initGame inputs = LoopResult.finished st rest →
      ∃ consumed, inputs = consumed ++ rest ∧
        st.guessCount = (validGuesses validWords consumed).length ∧
        0 ≤ st.guessCount ∧ st.guessCount ≤ 6) ∧
    (∀ st more, st.guessCount = 6 →
      gameLoop validWords pickedWord st more = LoopResult.finished st more) := by
  refine ⟨?_, ?_, ?_⟩
  · intro st h
    obtain ⟨h1, h2, h3⟩ := gameLoop_blocked validWords pickedWord inputs initGame st h
    simp only [initGame, Nat.zero_add] at h1 h3
    exact ⟨h1, Nat.zero_le _, h2, h3⟩
  · intro st rest h
    obtain ⟨consumed, e, hc, _⟩ :=
      gameLoop_finished validWords pickedWord inputs initGame st rest rfl
        (by simp [initGame]) h
    simp only [initGame, Nat.zero_add] at hc
    refine ⟨consumed, e, hc, Nat.zero_le _, ?_⟩
    exact gameLoop_count_le validWords pickedWord inputs initGame st rest
      (by simp [initGame]) h
  · intro st more h6
    exact gameLoop_done validWords pickedWord st more (by omega)

theorem attempt_count_invariant_witness :
    (gameLoop [robot, boots] robot initGame [Input.str boots, Input.str upperRobot] =
        LoopResult.blocked (Game.mk 1 false) ∧
      (Game.mk 1 false).guessCount =
        (validGuesses [robot, boots] [Input.str boots, Input.str upperRobot]).length) ∧
    (∃ consumed,
      [Input.str boots, Input.str boots, Input.str boots, Input.str boots, Input.str boots,
        Input.str boots, Input.str boots] = consumed ++ [Input.str boots] ∧
      (Game.mk 6 false).guessCount = (validGuesses [robot, boots] consumed).length ∧
      0 ≤ (Game.mk 6 false).guessCount ∧ (Game.mk 6 false).guessCount ≤ 6) :=
  ⟨⟨by decide,
    ((attempt_count_invariant [robot, boots] robot
      [Input.str boots, Input.str upperRobot]).1 (Game.mk 1 false) (by decide)).1⟩,
   (attempt_count_invariant [robot, boots] robot _).2.1 (Game.mk 6 false)
     [Input.str boots] (by decide)⟩

/-! ## The two lists of `cowsAndBulls` -/

theorem infix_of_containsRune (pick : Str) (c : Rune) (h : containsRune pick c = true) :
    encodeRune c <:+: pick := by
  by_cases hc : c < 128
  · have hm : c ∈ pick := (containsRune_ascii pick c hc).1 h
    obtain ⟨s, t, e⟩ := List.append_of_mem hm
    refine ⟨s, t, ?_⟩
    simp [encodeRune, hc, e]
  · unfold containsRune at h
    simp only [hc, if_false, decide_eq_true_eq] at h
    exact h

/-- C17: on a 5-letter guess and a 5-letter target the two lists returned by
`cowsAndBulls` share no letter, a letter that is a location match at some
position being never reported as in-the-word; and every letter reported as
in-the-word occurs in the target: its UTF-8 encoding is part of the target,
which for an ASCII letter means it is one of the target's bytes. -/
theorem cowsAndBulls_disjoint (guess pick : Str)
    (hg : guess.length = 5) (hp : pick.length = 5) :
    ∃ locMatch nonLocMatch, cowsAndBulls guess pick = some (locMatch, nonLocMatch) ∧
      (∀ c, c ∈ locMatch → c ∉ nonLocMatch) ∧
      (∀ c, c ∈ nonLocMatch → encodeRune c <:+: pick ∧ (c < 128 → c ∈ pick)) := by
  refine ⟨_, _, cowsAndBulls_eq guess pick hg hp, ?_, ?_⟩
  · intro c hc hn
    have h := (List.mem_filter.1 hn).2
    rw [(contains_eq_true _ _).2 hc] at h
    simp at h
  · intro c hn
    obtain ⟨_, _, _, _, hcr⟩ := mem_elsewhere pick _ c (List.mem_filter.1 hn).1
    exact ⟨infix_of_containsRune pick c hcr, fun h128 => (containsRune_ascii pick c h128).1 hcr⟩

theorem cowsAndBulls_disjoint_witness :
    boots[2]? = some 111 ∧ robot[2]? = some 98 ∧ robot[3]? = some 111 ∧
    ∃ locMatch nonLocMatch, cowsAndBulls boots robot = some (locMatch, nonLocMatch) ∧
      111 ∈ locMatch ∧ 111 ∉ nonLocMatch ∧ 98 ∈ nonLocMatch ∧ 98 ∈ robot := by
  obtain ⟨locMatch, nonLocMatch, h, hd, hin⟩ :=
    cowsAndBulls_disjoint boots robot (by decide) (by decide)
  have h1 : cowsAndBulls boots robot = some ([111], [98, 116]) := by decide
  have h2 := h
  rw [h1] at h2
  simp only [Option.some.injEq, Prod.mk.injEq] at h2
  obtain ⟨e1, e2⟩ := h2
  have hl : 111 ∈ locMatch := by rw [← e1]; decide
  have hb : 98 ∈ nonLocMatch := by rw [← e2]; decide
  exact ⟨by decide, by decide, by decide, locMatch, nonLocMatch, h, hl, hd 111 hl, hb,
    (hin 98 hb).2 (by decide)⟩

/-! ## The picked word is an accepted guess -/

/-- C18: for every non-empty dictionary built by `initializeWords`,
`pickRandomWord` returns the word at the index drawn by `rand.Intn`, an index
below the length of the dictionary; every index below the length is drawn for
some state of the random source; the picked word is a member of the
dictionary, `isValid` accepts it, and submitting it wins the game. -/
theorem pickRandomWord_valid (lines dict : List Str) (seed : Nat)
    (hdict : initializeWords lines = some dict) (hne : dict ≠ []) :
    (∃ k pickedWord, randIntn seed dict.length = some k ∧ k < dict.length ∧
      dict[k]? = some pickedWord ∧ pickRandomWord dict seed = some pickedWord ∧
      pickedWord ∈ dict ∧ isValid pickedWord dict = true ∧
      ∀ st, loopBody dict pickedWord st (Input.str pickedWord) =
        BodyResult.brk (Game.mk (st.guessCount + 1) true)) ∧
    (∀ k, k < dict.length → ∃ pickedWord, randIntn k dict.length = some k ∧
      pickRandomWord dict k = some pickedWord ∧ dict[k]? = some pickedWord ∧
      pickedWord ∈ dict ∧ isValid pickedWord dict = true) := by
  have hlen := initializeWords_length lines dict hdict
  have hpos : 0 < dict.length := List.length_pos.2 hne
  have hn0 : dict.length ≠ 0 := by omega
  constructor
  · have hk : seed % dict.length < dict.length := Nat.mod_lt _ hpos
    have hr : randIntn seed dict.length = some (seed % dict.length) := by
      simp [randIntn, hn0]
    have hget : dict[seed % dict.length]? = some dict[seed % dict.length] :=
      List.getElem?_eq_getElem hk
    have hmem : dict[seed % dict.length] ∈ dict := List.getElem_mem hk
    have hv : isValid dict[seed % dict.length] dict = true :=
      isValid_of_mem _ dict (hlen _ hmem) hmem
    refine ⟨seed % dict.length, dict[seed % dict.length], hr, hk, hget, ?_, hmem, hv, ?_⟩
    · simp only [pickRandomWord, hr, hget]
    · intro st
      simp [loopBody, hv]
  · intro k hk
    have hr : randIntn k dict.length = some k := by
      simp [randIntn, hn0, Nat.mod_eq_of_lt hk]
    have hget : dict[k]? = some dict[k] := List.getElem?_eq_getElem hk
    have hmem : dict[k] ∈ dict := List.getElem_mem hk
    exact ⟨dict[k], hr, by simp only [pickRandomWord, hr, hget], hget, hmem,
      isValid_of_mem _ dict (hlen _ hmem) hmem⟩

theorem pickRandomWord_valid_witness :
    ∃ k pickedWord, randIntn 7 [robot, boots].length = some k ∧ k < [robot, boots].length ∧
      [robot, boots][k]? = some pickedWord ∧ pickRandomWord [robot, boots] 7 = some pickedWord ∧
      pickedWord ∈ [robot, boots] ∧ isValid pickedWord [robot, boots] = true ∧
      ∀ st, loopBody [robot, boots] pickedWord st (Input.str pickedWord) =
        BodyResult.brk (Game.mk (st.guessCount + 1) true) :=
  (pickRandomWord_valid [robot, upperRobot, boots] [robot, boots] 7 (by decide) (by decide)).1

end Wordle
